import Mathlib

/-!
A shallow embedding of the key-value store core of `bonsaidb-local`
(`src/crates/bonsaidb-local/src/database/keyvalue.rs`), together with proofs
about its operations.

Rust strings are modelled as lists of characters (`Key`), `BTreeMap` as an
association list (`mapLookup` / `mapInsert` / `mapErase`), machine integers as
`Int` / `Nat` with explicit wrapping or saturation, timestamps as `Nat`, and
fallible storage reads as `Except Unit`.  Mutating methods of `KeyValueState`
return the updated state alongside their result so that partial mutation on an
error path stays observable, exactly as in the Rust code where `self` is
mutated in place before an `?` propagates.
-/

namespace KV

/-- A Rust `String` (UTF-8), modelled as its list of characters.  Character
order coincides with byte order of the UTF-8 encoding. -/
abbrev Key := List Char

/-- The NUL separator used between namespace and key in a full key. -/
def nul : Char := Char.ofNat 0

/-- Association-list model of `BTreeMap<String, α>`: lookup of the first
binding with the given key. -/
def mapLookup {α : Type} : List (Key × α) → Key → Option α
  | [], _ => none
  | (k, v) :: rest, key => if k = key then some v else mapLookup rest key

/-- Association-list model of `BTreeMap::insert`: replace the binding in
place if one exists, otherwise append a new binding. -/
def mapInsert {α : Type} : List (Key × α) → Key → α → List (Key × α)
  | [], key, v => [(key, v)]
  | (k, w) :: rest, key, v =>
    if k = key then (k, v) :: rest else (k, w) :: mapInsert rest key v

/-- Association-list model of `BTreeMap::remove`: drop the first binding with
the given key. -/
def mapErase {α : Type} : List (Key × α) → Key → List (Key × α)
  | [], _ => []
  | (k, v) :: rest, key => if k = key then rest else (k, v) :: mapErase rest key

/-- The keys of an association list, in binding order. -/
def keysOf {α : Type} (m : List (Key × α)) : List Key := m.map Prod.fst

/-- `full_key` from `keyvalue.rs`: `namespace ?? "" | NUL | key`. -/
def full_key (namespace_ : Option Key) (key : Key) : Key :=
  namespace_.getD [] ++ nul :: key

/-- Rust `str::split_once('\0')`: split at the first NUL, if any. -/
def splitOnceNul : Key → Option (Key × Key)
  | [] => none
  | c :: rest =>
    if c = nul then some ([], rest)
    else
      match splitOnceNul rest with
      | some (a, b) => some (c :: a, b)
      | none => none

/-- `split_key` from `keyvalue.rs`: split a full key at the first NUL; an
empty namespace component is reported as `none`. -/
def split_key (fk : Key) : Option (Option Key × Key) :=
  (splitOnceNul fk).map fun nk =>
    (if nk.1 = [] then none else some nk.1, nk.2)

theorem splitOnceNul_append (ns key : Key) (h : nul ∉ ns) :
    splitOnceNul (ns ++ nul :: key) = some (ns, key) := by
  induction ns with
  | nil => simp [splitOnceNul]
  | cons c rest ih =>
    have hc : c ≠ nul := fun hc => h (hc ▸ List.mem_cons_self c rest)
    have hrest : nul ∉ rest := fun hr => h (List.mem_cons_of_mem c hr)
    simp [splitOnceNul, hc, ih hrest]

/-- Splitting undoes `full_key` for namespaces that are absent, or non-empty
and NUL-free. -/
theorem split_key_full_key (ns : Option Key) (key : Key)
    (h : ns = none ∨ ∃ s, ns = some s ∧ s ≠ [] ∧ nul ∉ s) :
    split_key (full_key ns key) = some (ns, key) := by
  rcases h with h | ⟨s, rfl, hne, hnul⟩
  · subst h
    simp [split_key, full_key, splitOnceNul]
  · simp [split_key, full_key, splitOnceNul_append s key hnul, hne]

theorem splitOnceNul_eq_some (fk a b : Key) (h : splitOnceNul fk = some (a, b)) :
    fk = a ++ nul :: b := by
  induction fk generalizing a b with
  | nil => simp [splitOnceNul] at h
  | cons c rest ih =>
    by_cases hc : c = nul
    · subst hc
      simp [splitOnceNul] at h
      simp [← h.1, ← h.2]
    · simp only [splitOnceNul, if_neg hc] at h
      match hrec : splitOnceNul rest with
      | none => simp [hrec] at h
      | some (a', b') =>
        simp [hrec] at h
        obtain ⟨ha, hb⟩ := h
        have := ih a' b' hrec
        simp [← ha, ← hb, this]

/-- Rebuilding a successfully split key recovers it, unconditionally. -/
theorem full_key_split_key (fk : Key) (ns : Option Key) (key : Key)
    (h : split_key fk = some (ns, key)) : full_key ns key = fk := by
  simp only [split_key, Option.map_eq_some'] at h
  obtain ⟨⟨a, b⟩, hsplit, heq⟩ := h
  have hfk := splitOnceNul_eq_some fk a b hsplit
  simp only [Prod.mk.injEq] at heq
  obtain ⟨hns, hkey⟩ := heq
  subst hkey
  by_cases ha : a = []
  · simp [ha] at hns
    simp [full_key, ← hns, hfk, ha]
  · simp [ha] at hns
    simp [full_key, ← hns, hfk]

/-- Model of Rust `f64` as used by the store: either NaN or a number.  The
claims under verification touch floats only through NaN validation, so the
numeric part is modelled exactly as a rational and rounding is ignored. -/
def Float64 := Option Rat

instance : DecidableEq Float64 := by unfold Float64; infer_instance

/-- IEEE addition restricted to this model: NaN absorbs. -/
def f64Add : Float64 → Float64 → Float64
  | some a, some b => some (a + b)
  | _, _ => none

/-- IEEE subtraction restricted to this model: NaN absorbs. -/
def f64Sub : Float64 → Float64 → Float64
  | some a, some b => some (a - b)
  | _, _ => none

/-- `bonsaidb_core::keyvalue::Numeric`.  `integer` carries an `i64` (as an
`Int` kept in range by the wrapping/saturating helpers), `unsignedInteger` a
`u64` (as a `Nat`), `float` an `f64`. -/
inductive Numeric where
  | integer : Int → Numeric
  | unsignedInteger : Nat → Numeric
  | float : Float64 → Numeric
  deriving DecidableEq

/-- `bonsaidb_core::keyvalue::Value`: opaque bytes or a numeric. -/
inductive Value where
  | bytes : List Nat → Value
  | numeric : Numeric → Value
  deriving DecidableEq

/-- `Numeric::validate` succeeds unless the value is a NaN float. -/
def Numeric.isValid : Numeric → Bool
  | .float none => false
  | _ => true

/-- `Value::validate` succeeds unless the value is a NaN numeric. -/
def Value.isValid : Value → Bool
  | .bytes _ => true
  | .numeric n => n.isValid

/-- Wrap an integer into the two's-complement `i64` range. -/
def wrapI64 (x : Int) : Int := (x + 2 ^ 63) % 2 ^ 64 - 2 ^ 63

/-- Clamp an integer into the `i64` range (`saturating_add`/`sub` result). -/
def satI64 (x : Int) : Int := max (-(2 ^ 63)) (min x (2 ^ 63 - 1))

/-- Wrap a difference into the `u64` range (`u64::wrapping_sub`). -/
def wrapSubU64 (a b : Nat) : Nat := (a + 2 ^ 64 - b % 2 ^ 64) % 2 ^ 64

/-- Modelled from the spec: `Numeric::as_i64_lossy` lives in `bonsaidb-core`,
which is not part of the sources; per the spec a same-variant read is exact
and cross-variant reads are a best-effort cast (saturating or bit-wrapping
according to the flag, floats truncated). -/
def Numeric.as_i64_lossy : Numeric → Bool → Int
  | .integer v, _ => v
  | .unsignedInteger v, saturating =>
    if saturating then min (Int.ofNat v) (2 ^ 63 - 1) else wrapI64 (Int.ofNat v)
  | .float f, _ =>
    match f with
    | none => 0
    | some q => satI64 ⌊q⌋

/-- Modelled from the spec: `Numeric::as_u64_lossy` lives in `bonsaidb-core`;
same-variant reads are exact, cross-variant reads a best-effort cast. -/
def Numeric.as_u64_lossy : Numeric → Bool → Nat
  | .integer v, saturating =>
    if saturating then (max v 0).toNat else (v % 2 ^ 64).toNat
  | .unsignedInteger v, _ => v
  | .float f, _ =>
    match f with
    | none => 0
    | some q => (max ⌊q⌋ 0).toNat

/-- Modelled from the spec: `Numeric::as_f64_lossy` lives in `bonsaidb-core`;
integers are cast to the float model, floats are exact. -/
def Numeric.as_f64_lossy : Numeric → Float64
  | .integer v => some (v : Rat)
  | .unsignedInteger v => some (v : Rat)
  | .float f => f

/-- `increment` from `keyvalue.rs`: the amount's variant dictates the result
variant; the existing value is coerced lossily to that variant. -/
def increment (existing amount : Numeric) (saturating : Bool) : Numeric :=
  match amount with
  | .integer a =>
    let existing_value := existing.as_i64_lossy saturating
    .integer (if saturating then satI64 (existing_value + a)
              else wrapI64 (existing_value + a))
  | .unsignedInteger a =>
    let existing_value := existing.as_u64_lossy saturating
    .unsignedInteger (if saturating then min (existing_value + a) (2 ^ 64 - 1)
                      else (existing_value + a) % 2 ^ 64)
  | .float a => .float (f64Add existing.as_f64_lossy a)

/-- `decrement` from `keyvalue.rs`, symmetric to `increment`. -/
def decrement (existing amount : Numeric) (saturating : Bool) : Numeric :=
  match amount with
  | .integer a =>
    let existing_value := existing.as_i64_lossy saturating
    .integer (if saturating then satI64 (existing_value - a)
              else wrapI64 (existing_value - a))
  | .unsignedInteger a =>
    let existing_value := existing.as_u64_lossy saturating
    .unsignedInteger (if saturating then existing_value - a
                      else wrapSubU64 existing_value a)
  | .float a => .float (f64Sub existing.as_f64_lossy a)

/-- `bonsaidb_local::database::keyvalue::Entry`; timestamps are `Nat`. -/
structure Entry where
  value : Value
  expiration : Option Nat
  last_updated : Nat
  deriving DecidableEq

/-- `bonsaidb_core::keyvalue::KeyCheck`. -/
inductive KeyCheck where
  | onlyIfPresent
  | onlyIfVacant
  deriving DecidableEq

/-- `bonsaidb_core::keyvalue::SetCommand`. -/
structure SetCommand where
  value : Value
  expiration : Option Nat
  keep_existing_expiration : Bool
  check : Option KeyCheck
  return_previous_value : Bool
  deriving DecidableEq

/-- `bonsaidb_core::keyvalue::KeyStatus`. -/
inductive KeyStatus where
  | inserted
  | updated
  | deleted
  | notChanged
  deriving DecidableEq

/-- `bonsaidb_core::keyvalue::Output`. -/
inductive Output where
  | status : KeyStatus → Output
  | value : Option Value → Output
  deriving DecidableEq

/-- The errors a key-value command can surface: an invalid (NaN) value, a
numeric command hitting a bytes value, or an underlying storage failure. -/
inductive KvError where
  | valueInvalid
  | typeMismatch
  | storage
  deriving DecidableEq

/-- `bonsaidb_core::keyvalue::Command` (the payload of a `KeyOperation`). -/
inductive Command where
  | set : SetCommand → Command
  | get : Bool → Command
  | delete : Command
  | increment : Numeric → Bool → Command
  | decrement : Numeric → Bool → Command

/-- Modelled from the spec: `PersistenceThreshold` lives in the
`bonsaidb-local` config module, which is not part of the sources. -/
structure PersistenceThreshold where
  changes : Nat
  duration : Option Nat

/-- Modelled from the spec: `KeyValuePersistence` lives in the
`bonsaidb-local` config module, which is not part of the sources.
`should_commit(n, elapsed)` holds iff some threshold has `n ≥ changes` and
`(duration is none or elapsed ≥ duration)`; `Immediate` commits always. -/
inductive KeyValuePersistence where
  | immediate
  | lazy : List PersistenceThreshold → KeyValuePersistence

/-- Modelled from the spec: the commit predicate of `KeyValuePersistence`. -/
def KeyValuePersistence.should_commit : KeyValuePersistence → Nat → Nat → Bool
  | .immediate, _, _ => true
  | .lazy thresholds, n, elapsed =>
    thresholds.any fun t =>
      decide (t.changes ≤ n) && (t.duration.isNone || decide (t.duration.getD 0 ≤ elapsed))

/-- The portion of `KeyValueState` the claims are about.  The on-disk tree is
modelled as a read function (`retrieve_key_from_disk`) that may fail; a
deserialisation failure is already folded into its `none` result, as in the
code.  The watchables (`background_worker_target`, `last_persistence`) and
the shutdown channel are not modelled: no claim mentions them. -/
structure KeyValueState where
  disk : Key → Except Unit (Option Entry)
  expiring_keys : List (Key × Nat)
  expiration_order : List Key
  dirty_keys : List (Key × Option Entry)
  keys_being_persisted : Option (List (Key × Option Entry))
  last_commit : Nat
  persistence : KeyValuePersistence

/-- The timestamp recorded for a key in `expiring_keys` (`.unwrap()` in the
code; the invariant guarantees presence, absent keys default to 0). -/
def tsOf (ek : List (Key × Nat)) (k : Key) : Nat := (mapLookup ek k).getD 0

/-- The insertion scan of `update_key_expiration`: walk `expiration_order`
and insert `key` before the first entry whose recorded timestamp is strictly
greater than `exp` (the code compares with `>`), else push to the back. -/
def insertExpiration (ek : List (Key × Nat)) (exp : Nat) (key : Key) :
    List Key → List Key
  | [] => [key]
  | j :: rest =>
    if exp < tsOf ek j then key :: j :: rest
    else j :: insertExpiration ek exp key rest

/-- The `(expiring_keys, expiration_order)` update performed by
`update_key_expiration` (the background-target republication it may trigger
is not modelled). -/
def updateKeyExpirationPair (ek : List (Key × Nat)) (ord : List Key)
    (tree_key : Key) (expiration : Option Nat) : List (Key × Nat) × List Key :=
  match expiration with
  | some exp =>
    let ord1 := if (mapLookup ek tree_key).isSome then ord.erase tree_key else ord
    (mapInsert ek tree_key exp, insertExpiration ek exp tree_key ord1)
  | none =>
    if (mapLookup ek tree_key).isSome then
      (mapErase ek tree_key, ord.erase tree_key)
    else (ek, ord)

/-- `KeyValueState::update_key_expiration`. -/
def KeyValueState.update_key_expiration (s : KeyValueState) (tree_key : Key)
    (expiration : Option Nat) : KeyValueState :=
  let p := updateKeyExpirationPair s.expiring_keys s.expiration_order tree_key expiration
  { s with expiring_keys := p.1, expiration_order := p.2 }

/-- `KeyValueState::get`: the layered read — `dirty_keys` over
`keys_being_persisted` over the on-disk tree. -/
def KeyValueState.get (s : KeyValueState) (key : Key) : Except Unit (Option Entry) :=
  match mapLookup s.dirty_keys key with
  | some entry => .ok entry
  | none =>
    match s.keys_being_persisted.bind fun keys => mapLookup keys key with
    | some persisting_entry => .ok persisting_entry
    | none => s.disk key

/-- `KeyValueState::set`: record a dirty write. -/
def KeyValueState.set (s : KeyValueState) (key : Key) (value : Entry) : KeyValueState :=
  { s with dirty_keys := mapInsert s.dirty_keys key (some value) }

/-- `KeyValueState::remove`: drop the key from the expiration index, record a
tombstone in `dirty_keys`, and return the prior visible entry.  A failing
disk read leaves `dirty_keys` untouched (the expiration update has already
happened, as in the code). -/
def KeyValueState.remove (s : KeyValueState) (key : Key) :
    Except Unit (Option Entry) × KeyValueState :=
  let s := s.update_key_expiration key none
  match mapLookup s.dirty_keys key with
  | some dirty_entry =>
    (.ok dirty_entry, { s with dirty_keys := mapInsert s.dirty_keys key none })
  | none =>
    match s.keys_being_persisted.bind fun keys => mapLookup keys key with
    | some persisting_entry =>
      (.ok persisting_entry, { s with dirty_keys := mapInsert s.dirty_keys key none })
    | none =>
      match s.disk key with
      | .error e => (.error e, s)
      | .ok previous_value =>
        (.ok previous_value, { s with dirty_keys := mapInsert s.dirty_keys key none })

/-- `KeyValueState::replace`: write `value` into `dirty_keys` and return the
prior visible entry; the batch-or-disk read happens only when the key was
clean, and a failing read leaves the state untouched. -/
def KeyValueState.replace (s : KeyValueState) (key : Key) (value : Entry) :
    Except Unit (Option Entry) × KeyValueState :=
  match mapLookup s.dirty_keys key with
  | none =>
    let stored : Except Unit (Option Entry) :=
      match s.keys_being_persisted.bind fun keys => mapLookup keys key with
      | some persisting_entry => .ok persisting_entry
      | none => s.disk key
    match stored with
    | .error e => (.error e, s)
    | .ok stored_value =>
      (.ok stored_value, { s with dirty_keys := mapInsert s.dirty_keys key (some value) })
  | some old => (.ok old, { s with dirty_keys := mapInsert s.dirty_keys key (some value) })

/-- The loop of `remove_expired_keys`: pop expired heads of
`expiration_order`, erasing them from `expiring_keys` and recording
tombstones in `dirty_keys`. -/
def removeExpiredLoop (now : Nat) :
    List Key → List (Key × Nat) → List (Key × Option Entry) →
    List Key × List (Key × Nat) × List (Key × Option Entry)
  | [], ek, dk => ([], ek, dk)
  | k :: rest, ek, dk =>
    if tsOf ek k ≤ now then
      removeExpiredLoop now rest (mapErase ek k) (mapInsert dk k none)
    else (k :: rest, ek, dk)

/-- `KeyValueState::remove_expired_keys`. -/
def KeyValueState.remove_expired_keys (s : KeyValueState) (now : Nat) : KeyValueState :=
  let r := removeExpiredLoop now s.expiration_order s.expiring_keys s.dirty_keys
  { s with expiration_order := r.1, expiring_keys := r.2.1, dirty_keys := r.2.2 }

/-- `KeyValueState::needs_commit`. -/
def KeyValueState.needs_commit (s : KeyValueState) (now : Nat) : Bool :=
  if s.keys_being_persisted.isSome then false
  else s.persistence.should_commit s.dirty_keys.length (now - s.last_commit)

/-- `KeyValueState::stage_dirty_keys`: move a non-empty `dirty_keys` into the
in-flight slot when none is staged, returning the snapshot. -/
def KeyValueState.stage_dirty_keys (s : KeyValueState) :
    Option (List (Key × Option Entry)) × KeyValueState :=
  if s.dirty_keys ≠ [] ∧ s.keys_being_persisted = none then
    (some s.dirty_keys,
     { s with dirty_keys := [], keys_being_persisted := some s.dirty_keys })
  else (none, s)

/-- The tail of `execute_set_operation`: the `Output` computed from
`return_previous_value` and the prior entry. -/
def setOutcome (set : SetCommand) (previous_value : Option Entry) : Output :=
  if set.return_previous_value then .value (previous_value.map Entry.value)
  else if previous_value.isNone then .status .inserted
  else .status .updated

/-- `KeyValueState::execute_set_operation`. -/
def KeyValueState.execute_set_operation (s : KeyValueState) (namespace_ : Option Key)
    (key : Key) (set : SetCommand) (now : Nat) : Except KvError Output × KeyValueState :=
  if set.value.isValid then
    let entry : Entry := ⟨set.value, set.expiration, now⟩
    let fk := full_key namespace_ key
    if set.check.isSome || set.return_previous_value || set.keep_existing_expiration then
      match s.get fk with
      | .error _ => (.error .storage, s)
      | .ok existing_value =>
        let updating :=
          match set.check with
          | some .onlyIfPresent => existing_value.isSome
          | some .onlyIfVacant => existing_value.isNone
          | none => true
        if updating then
          let entry :=
            if set.keep_existing_expiration then
              match existing_value with
              | some ev => { entry with expiration := ev.expiration }
              | none => entry
            else entry
          let s := s.update_key_expiration fk entry.expiration
          -- already fetched: place the entry directly in `dirty_keys`
          (.ok (setOutcome set existing_value), s.set fk entry)
        else (.ok (.status .notChanged), s)
    else
      -- no fetch requested: the check trivially passes (`check` is `None`)
      let s := s.update_key_expiration fk entry.expiration
      match s.replace fk entry with
      | (.error _, s) => (.error .storage, s)
      | (.ok previous_value, s) => (.ok (setOutcome set previous_value), s)
  else (.error .valueInvalid, s)

/-- `KeyValueState::execute_get_operation`. -/
def KeyValueState.execute_get_operation (s : KeyValueState) (namespace_ : Option Key)
    (key : Key) (delete : Bool) : Except KvError Output × KeyValueState :=
  let fk := full_key namespace_ key
  if delete then
    match s.remove fk with
    | (.error _, s) => (.error .storage, s)
    | (.ok entry, s) => (.ok (.value (entry.map Entry.value)), s)
  else
    match s.get fk with
    | .error _ => (.error .storage, s)
    | .ok entry => (.ok (.value (entry.map Entry.value)), s)

/-- `KeyValueState::execute_delete_operation`. -/
def KeyValueState.execute_delete_operation (s : KeyValueState) (namespace_ : Option Key)
    (key : Key) : Except KvError Output × KeyValueState :=
  let fk := full_key namespace_ key
  match s.remove fk with
  | (.error _, s) => (.error .storage, s)
  | (.ok value, s) =>
    if value.isSome then (.ok (.status .deleted), s)
    else (.ok (.status .notChanged), s)

/-- `KeyValueState::execute_numeric_operation`. -/
def KeyValueState.execute_numeric_operation (s : KeyValueState) (namespace_ : Option Key)
    (key : Key) (amount : Numeric) (saturating : Bool) (now : Nat)
    (op : Numeric → Numeric → Bool → Numeric) : Except KvError Output × KeyValueState :=
  let fk := full_key namespace_ key
  match s.get fk with
  | .error _ => (.error .storage, s)
  | .ok current =>
    let entry := current.getD ⟨.numeric (.unsignedInteger 0), none, now⟩
    match entry.value with
    | .numeric existing =>
      let new_numeric := op existing amount saturating
      if new_numeric.isValid then
        let value := Value.numeric new_numeric
        (.ok (.value (some value)), s.set fk { entry with value := value })
      else (.error .valueInvalid, s)
    | .bytes _ => (.error .typeMismatch, s)

/-- `KeyValueState::execute_increment_operation`. -/
def KeyValueState.execute_increment_operation (s : KeyValueState) (namespace_ : Option Key)
    (key : Key) (amount : Numeric) (saturating : Bool) (now : Nat) :
    Except KvError Output × KeyValueState :=
  s.execute_numeric_operation namespace_ key amount saturating now increment

/-- `KeyValueState::execute_decrement_operation`. -/
def KeyValueState.execute_decrement_operation (s : KeyValueState) (namespace_ : Option Key)
    (key : Key) (amount : Numeric) (saturating : Bool) (now : Nat) :
    Except KvError Output × KeyValueState :=
  s.execute_numeric_operation namespace_ key amount saturating now decrement

/-- The command dispatch inside `perform_kv_operation` (after the
expired-key preamble; the commit/scheduler epilogue is separate). -/
def KeyValueState.execute_command (s : KeyValueState) (namespace_ : Option Key)
    (key : Key) (command : Command) (now : Nat) : Except KvError Output × KeyValueState :=
  match command with
  | .set cmd => s.execute_set_operation namespace_ key cmd now
  | .get delete => s.execute_get_operation namespace_ key delete
  | .delete => s.execute_delete_operation namespace_ key
  | .increment amount saturating =>
    s.execute_increment_operation namespace_ key amount saturating now
  | .decrement amount saturating =>
    s.execute_decrement_operation namespace_ key amount saturating now

/-- `bonsaidb_core::transaction::ChangedKey`. -/
structure ChangedKey where
  namespace_ : Option Key
  key : Key
  deleted : Bool
  deriving DecidableEq

/-- The operation the compare-swap callback of `persist_keys` returns for one
batch entry. -/
inductive TreeKeyOp where
  | set : Entry → TreeKeyOp
  | remove
  | skip
  deriving DecidableEq

/-- The compare-swap decision of `persist_keys` for a single batch key, given
the tree's existing value. -/
def persistTreeOp (tree : Key → Option Entry) (fk : Key) (v : Option Entry) : TreeKeyOp :=
  match v with
  | some e => .set e
  | none => if (tree fk).isSome then .remove else .skip

/-- The `ChangedKey` list recorded by the compare-swap pass of
`persist_keys`, visiting the batch entries in their list order (the tree
`modify` visits the batch's keys in ascending full-key order, and the
distinct keys make each decision depend only on the original tree). -/
def persist_changed_keys (tree : Key → Option Entry) :
    List (Key × Option Entry) → List ChangedKey
  | [] => []
  | (fk, v) :: rest =>
    let nsk := (split_key fk).getD (none, fk)
    match v with
    | some _ => ⟨nsk.1, nsk.2, false⟩ :: persist_changed_keys tree rest
    | none =>
      if (tree fk).isSome then ⟨nsk.1, nsk.2, true⟩ :: persist_changed_keys tree rest
      else persist_changed_keys tree rest

/-- The on-disk tree after the compare-swap pass of `persist_keys`: batch
`Some` entries are written, batch `None` entries are removed (a `Skip` on an
absent key leaves it absent, which coincides with removal). -/
def persistApply (tree : Key → Option Entry) (batch : List (Key × Option Entry)) :
    Key → Option Entry :=
  fun k =>
    match mapLookup batch k with
    | some (some e) => some e
    | some none => none
    | none => tree k

theorem mapLookup_mapInsert_self {α : Type} (m : List (Key × α)) (k : Key) (v : α) :
    mapLookup (mapInsert m k v) k = some v := by
  induction m with
  | nil => simp [mapInsert, mapLookup]
  | cons p rest ih =>
    by_cases h : p.1 = k
    · simp [mapInsert, mapLookup, h]
    · simp [mapInsert, mapLookup, h, ih]

theorem mapLookup_mapInsert_ne {α : Type} (m : List (Key × α)) (k k' : Key) (v : α)
    (h : k' ≠ k) : mapLookup (mapInsert m k v) k' = mapLookup m k' := by
  induction m with
  | nil => simp [mapInsert, mapLookup, Ne.symm h]
  | cons p rest ih =>
    obtain ⟨pk, pv⟩ := p
    by_cases hp : pk = k
    · subst hp
      simp [mapInsert, mapLookup, Ne.symm h]
    · by_cases hp' : pk = k' <;> simp [mapInsert, mapLookup, hp, hp', h, ih]

theorem mapLookup_mapErase_ne {α : Type} (m : List (Key × α)) (k k' : Key)
    (h : k' ≠ k) : mapLookup (mapErase m k) k' = mapLookup m k' := by
  induction m with
  | nil => simp [mapErase]
  | cons p rest ih =>
    obtain ⟨pk, pv⟩ := p
    by_cases hp : pk = k
    · subst hp
      simp [mapErase, mapLookup, Ne.symm h]
    · by_cases hp' : pk = k' <;> simp [mapErase, mapLookup, hp, hp', h, ih]

theorem keysOf_mapErase {α : Type} (m : List (Key × α)) (k : Key) :
    keysOf (mapErase m k) = (keysOf m).erase k := by
  induction m with
  | nil => simp [mapErase, keysOf]
  | cons p rest ih =>
    by_cases hp : p.1 = k
    · simp [mapErase, keysOf, hp, List.erase_cons_head]
    · have : (p.1 == k) = false := by simp [hp]
      simp [mapErase, keysOf, hp, List.erase_cons, this] at ih ⊢
      exact ih

theorem mapLookup_isSome_iff_mem {α : Type} (m : List (Key × α)) (k : Key) :
    (mapLookup m k).isSome ↔ k ∈ keysOf m := by
  induction m with
  | nil => simp [mapLookup, keysOf]
  | cons p rest ih =>
    obtain ⟨pk, pv⟩ := p
    by_cases hp : pk = k
    · subst hp
      simp only [mapLookup, if_pos rfl, Option.isSome_some, keysOf, List.map_cons,
        List.mem_cons]
      exact iff_of_true rfl (Or.inl trivial)
    · simp only [mapLookup, if_neg hp, keysOf, List.map_cons, List.mem_cons] at ih ⊢
      rw [ih]
      constructor
      · exact fun hm => Or.inr hm
      · rintro (he | hm)
        · exact absurd he.symm hp
        · exact hm

theorem length_mapInsert_of_not_mem {α : Type} (m : List (Key × α)) (k : Key) (v : α)
    (h : mapLookup m k = none) : (mapInsert m k v).length = m.length + 1 := by
  induction m with
  | nil => simp [mapInsert]
  | cons p rest ih =>
    by_cases hp : p.1 = k
    · simp [mapLookup, hp] at h
    · simp [mapLookup, hp] at h
      simp [mapInsert, hp, ih h]

theorem keysOf_mapInsert {α : Type} (m : List (Key × α)) (k : Key) (v : α) :
    keysOf (mapInsert m k v) =
      if (mapLookup m k).isSome then keysOf m else keysOf m ++ [k] := by
  induction m with
  | nil => simp [mapInsert, mapLookup, keysOf]
  | cons p rest ih =>
    obtain ⟨pk, pv⟩ := p
    by_cases hp : pk = k
    · simp [mapInsert, mapLookup, keysOf, hp]
    · simp only [mapInsert, mapLookup, if_neg hp, keysOf, List.map_cons] at ih ⊢
      rw [ih]
      by_cases hs : (mapLookup rest k).isSome <;> simp [hs]

theorem mapLookup_mapErase_self {α : Type} (m : List (Key × α)) (k : Key)
    (h : (keysOf m).Nodup) : mapLookup (mapErase m k) k = none := by
  have hmem : k ∉ keysOf (mapErase m k) := by
    rw [keysOf_mapErase]
    exact h.not_mem_erase
  rw [← mapLookup_isSome_iff_mem] at hmem
  exact Option.not_isSome_iff_eq_none.mp hmem

/-! Projection facts used throughout: `update_key_expiration` touches only the
expiration structures, so the layered read is unaffected. -/

theorem update_key_expiration_dirty (s : KeyValueState) (k : Key) (e : Option Nat) :
    (s.update_key_expiration k e).dirty_keys = s.dirty_keys := rfl

theorem update_key_expiration_persisted (s : KeyValueState) (k : Key) (e : Option Nat) :
    (s.update_key_expiration k e).keys_being_persisted = s.keys_being_persisted := rfl

theorem update_key_expiration_disk (s : KeyValueState) (k : Key) (e : Option Nat) :
    (s.update_key_expiration k e).disk = s.disk := rfl

theorem get_update_key_expiration (s : KeyValueState) (k k' : Key) (e : Option Nat) :
    (s.update_key_expiration k e).get k' = s.get k' := rfl

/-- `remove` in terms of the layered read: the prior visible value is
returned, the expiration entry is dropped, and (unless the read failed) a
tombstone lands in `dirty_keys`. -/
theorem remove_eq (s : KeyValueState) (k : Key) :
    s.remove k =
      match s.get k with
      | .error e => (.error e, s.update_key_expiration k none)
      | .ok cur =>
        (.ok cur,
         { s.update_key_expiration k none with
             dirty_keys := mapInsert s.dirty_keys k none }) := by
  unfold KeyValueState.remove KeyValueState.get
  simp only [update_key_expiration_dirty, update_key_expiration_persisted,
    update_key_expiration_disk]
  cases hl : mapLookup s.dirty_keys k with
  | some d => rfl
  | none =>
    cases hp : s.keys_being_persisted.bind fun keys => mapLookup keys k with
    | some p => rfl
    | none =>
      cases hdisk : s.disk k with
      | error e => rfl
      | ok prev => rfl

/-- `replace` in terms of the layered read: the prior visible value is
returned and the new entry lands in `dirty_keys`. -/
theorem replace_of_get (s : KeyValueState) (k : Key) (v : Entry) (cur : Option Entry)
    (h : s.get k = .ok cur) :
    s.replace k v =
      (.ok cur, { s with dirty_keys := mapInsert s.dirty_keys k (some v) }) := by
  unfold KeyValueState.replace
  unfold KeyValueState.get at h
  cases hl : mapLookup s.dirty_keys k with
  | some d =>
    rw [hl] at h
    cases h
    rfl
  | none =>
    rw [hl] at h
    cases hp : s.keys_being_persisted.bind fun keys => mapLookup keys k with
    | some p =>
      rw [hp] at h
      cases h
      simp [hp]
    | none =>
      rw [hp] at h
      have hd : s.disk k = .ok cur := h
      simp [hp, hd]

/-- Specialisation of `remove_eq` to a successful layered read. -/
theorem remove_ok (s : KeyValueState) (k : Key) (cur : Option Entry)
    (h : s.get k = .ok cur) :
    s.remove k =
      (.ok cur,
       { s.update_key_expiration k none with
           dirty_keys := mapInsert s.dirty_keys k none }) := by
  rw [remove_eq, h]

/-- Specialisation of `remove_eq` to a failing layered read: `dirty_keys` is
not touched. -/
theorem remove_err (s : KeyValueState) (k : Key)
    (h : s.get k = .error ()) :
    s.remove k = (.error (), s.update_key_expiration k none) := by
  rw [remove_eq, h]

/-- C7: `stage_dirty_keys` returns a snapshot exactly when `dirty_keys` is
non-empty and `keys_being_persisted` is `None`; then the snapshot is the
prior `dirty_keys`, `dirty_keys` is emptied and the in-flight slot holds the
snapshot; in every other case it returns `None` and the state is unchanged. -/
theorem stage_dirty_keys_spec (s : KeyValueState) :
    (s.dirty_keys ≠ [] ∧ s.keys_being_persisted = none →
      s.stage_dirty_keys =
        (some s.dirty_keys,
         { s with dirty_keys := [], keys_being_persisted := some s.dirty_keys })) ∧
    (s.dirty_keys = [] ∨ s.keys_being_persisted ≠ none →
      s.stage_dirty_keys = (none, s)) := by
  constructor
  · intro h
    simp only [KeyValueState.stage_dirty_keys, if_pos h]
  · intro h
    unfold KeyValueState.stage_dirty_keys
    rw [if_neg]
    rintro ⟨h1, h2⟩
    rcases h with h | h
    · exact h1 h
    · exact h h2

theorem stage_dirty_keys_spec_witness :
    (([([nul], some (⟨.bytes [], none, 0⟩ : Entry))] : List (Key × Option Entry)) ≠ [] ∧
      (none : Option (List (Key × Option Entry))) = none) ∧
    (KeyValueState.mk (fun _ => .ok none) [] [] [([nul], some ⟨.bytes [], none, 0⟩)]
        none 0 .immediate).stage_dirty_keys =
      (some [([nul], some ⟨.bytes [], none, 0⟩)],
       { KeyValueState.mk (fun _ => .ok none) [] [] [([nul], some ⟨.bytes [], none, 0⟩)]
           none 0 .immediate with
           dirty_keys := [],
           keys_being_persisted := some [([nul], some ⟨.bytes [], none, 0⟩)] }) :=
  ⟨⟨by decide, rfl⟩,
   (stage_dirty_keys_spec _).1 ⟨by decide, rfl⟩⟩

/-- C9 counterexample: an empty-but-present namespace does not round-trip —
`full_key (some "") "a"` is `"\0a"`, which splits back to a *missing*
namespace. -/
theorem split_key_full_key_counterexample :
    split_key (full_key (some []) [Char.ofNat 97]) = some (none, [Char.ofNat 97]) ∧
    (some (none, [Char.ofNat 97]) : Option (Option Key × Key)) ≠
      some (some [], [Char.ofNat 97]) := by
  exact ⟨rfl, by decide⟩

theorem split_key_full_key_witness :
    ((some [Char.ofNat 97] : Option Key) = none ∨
      ∃ s, (some [Char.ofNat 97] : Option Key) = some s ∧ s ≠ [] ∧ nul ∉ s) ∧
    split_key (full_key (some [Char.ofNat 97]) [Char.ofNat 98]) =
      some (some [Char.ofNat 97], [Char.ofNat 98]) :=
  ⟨Or.inr ⟨[Char.ofNat 97], rfl, by decide, by decide⟩,
   split_key_full_key _ _ (Or.inr ⟨[Char.ofNat 97], rfl, by decide, by decide⟩)⟩

/-- C2: `Delete` returns `Deleted` exactly when a value was visible for the
key under the layered read, `NotChanged` otherwise, and a `Get` immediately
after the delete returns absent. -/
theorem delete_operation_spec (s : KeyValueState) (ns : Option Key) (key : Key)
    (cur : Option Entry) (hget : s.get (full_key ns key) = .ok cur) :
    (s.execute_delete_operation ns key).1 =
      .ok (.status (if cur.isSome then .deleted else .notChanged)) ∧
    (s.execute_delete_operation ns key).2.get (full_key ns key) = .ok none ∧
    (s.execute_delete_operation ns key).2.execute_get_operation ns key false =
      (.ok (.value none), (s.execute_delete_operation ns key).2) := by
  have hrem := remove_ok s (full_key ns key) cur hget
  have hdirty :
      mapLookup (mapInsert s.dirty_keys (full_key ns key) none) (full_key ns key) =
        some none := mapLookup_mapInsert_self _ _ _
  have hdel :
      s.execute_delete_operation ns key =
        (.ok (.status (if cur.isSome then .deleted else .notChanged)),
         { s.update_key_expiration (full_key ns key) none with
             dirty_keys := mapInsert s.dirty_keys (full_key ns key) none }) := by
    simp only [KeyValueState.execute_delete_operation, hrem]
    cases cur <;> rfl
  refine ⟨by rw [hdel], ?_, ?_⟩
  · rw [hdel]
    unfold KeyValueState.get
    rw [hdirty]
  · rw [hdel]
    simp only [KeyValueState.execute_get_operation, Bool.false_eq_true, if_false]
    unfold KeyValueState.get
    rw [hdirty]
    rfl

/-- A concrete one-entry state used to witness C2. -/
def witnessState2 : KeyValueState :=
  { disk := fun _ => .ok none
    expiring_keys := []
    expiration_order := []
    dirty_keys := [([nul, Char.ofNat 107], some ⟨.bytes [1], none, 0⟩)]
    keys_being_persisted := none
    last_commit := 0
    persistence := .immediate }

theorem delete_operation_spec_witness :
    witnessState2.get (full_key none [Char.ofNat 107]) =
      .ok (some ⟨.bytes [1], none, 0⟩) ∧
    (witnessState2.execute_delete_operation none [Char.ofNat 107]).1 =
      .ok (.status (if (some (⟨.bytes [1], none, 0⟩ : Entry)).isSome then .deleted
                    else .notChanged)) :=
  ⟨rfl, (delete_operation_spec witnessState2 none [Char.ofNat 107]
          (some ⟨.bytes [1], none, 0⟩) rfl).1⟩

/-- C10: deleting a key absent in all three layers still inserts a `None`
tombstone, growing `dirty_keys` (the count `needs_commit` consults) by one,
and a later persistence pass emits `Skip` for such a tombstone, records no
`ChangedKey`, and leaves the tree unchanged. -/
theorem delete_absent_key_spec (s : KeyValueState) (ns : Option Key) (key : Key)
    (tree : Key → Option Entry)
    (hd : mapLookup s.dirty_keys (full_key ns key) = none)
    (hp : (s.keys_being_persisted.bind fun keys => mapLookup keys (full_key ns key)) = none)
    (hdisk : s.disk (full_key ns key) = .ok none)
    (htree : tree (full_key ns key) = none) :
    (s.execute_delete_operation ns key).1 = .ok (.status .notChanged) ∧
    mapLookup (s.execute_delete_operation ns key).2.dirty_keys (full_key ns key) =
      some none ∧
    (s.execute_delete_operation ns key).2.dirty_keys.length = s.dirty_keys.length + 1 ∧
    (s.execute_get_operation ns key true).1 = .ok (.value none) ∧
    mapLookup (s.execute_get_operation ns key true).2.dirty_keys (full_key ns key) =
      some none ∧
    (s.execute_get_operation ns key true).2.dirty_keys.length = s.dirty_keys.length + 1 ∧
    persistTreeOp tree (full_key ns key) none = .skip ∧
    persist_changed_keys tree [(full_key ns key, none)] = [] ∧
    (∀ k, persistApply tree [(full_key ns key, none)] k = tree k) := by
  have hget : s.get (full_key ns key) = .ok none := by
    unfold KeyValueState.get
    rw [hd, hp, hdisk]
  have hrem := remove_ok s (full_key ns key) none hget
  have hdel :
      s.execute_delete_operation ns key =
        (.ok (.status .notChanged),
         { s.update_key_expiration (full_key ns key) none with
             dirty_keys := mapInsert s.dirty_keys (full_key ns key) none }) := by
    simp only [KeyValueState.execute_delete_operation, hrem]
    rfl
  have hgetdel :
      s.execute_get_operation ns key true =
        (.ok (.value none),
         { s.update_key_expiration (full_key ns key) none with
             dirty_keys := mapInsert s.dirty_keys (full_key ns key) none }) := by
    simp only [KeyValueState.execute_get_operation, if_pos rfl, hrem]
    rfl
  refine ⟨by rw [hdel], ?_, ?_, by rw [hgetdel], ?_, ?_, ?_, ?_, ?_⟩
  · rw [hdel]
    exact mapLookup_mapInsert_self _ _ _
  · rw [hdel]
    exact length_mapInsert_of_not_mem _ _ _ hd
  · rw [hgetdel]
    exact mapLookup_mapInsert_self _ _ _
  · rw [hgetdel]
    exact length_mapInsert_of_not_mem _ _ _ hd
  · simp [persistTreeOp, htree]
  · simp [persist_changed_keys, htree]
  · intro k
    unfold persistApply
    by_cases hk : full_key ns key = k
    · subst hk
      simp [mapLookup, htree]
    · simp [mapLookup, hk]

/-- A concrete empty state used to witness C10. -/
def witnessState10 : KeyValueState :=
  { disk := fun _ => .ok none
    expiring_keys := []
    expiration_order := []
    dirty_keys := []
    keys_being_persisted := none
    last_commit := 0
    persistence := .immediate }

theorem delete_absent_key_spec_witness :
    (mapLookup witnessState10.dirty_keys (full_key none [Char.ofNat 107]) = none ∧
      (witnessState10.keys_being_persisted.bind fun keys =>
        mapLookup keys (full_key none [Char.ofNat 107])) = none ∧
      witnessState10.disk (full_key none [Char.ofNat 107]) = .ok none ∧
      ((fun _ => none : Key → Option Entry) (full_key none [Char.ofNat 107])) = none) ∧
    (witnessState10.execute_delete_operation none [Char.ofNat 107]).1 =
      .ok (.status .notChanged) :=
  ⟨⟨rfl, rfl, rfl, rfl⟩,
   (delete_absent_key_spec witnessState10
      none [Char.ofNat 107] (fun _ => none) rfl rfl rfl rfl).1⟩

/-- A `Set` command's check fails when `OnlyIfPresent` sees an absent visible
value or `OnlyIfVacant` a present one. -/
def checkFailed (check : Option KeyCheck) (existing : Option Entry) : Bool :=
  match check with
  | some .onlyIfPresent => existing.isNone
  | some .onlyIfVacant => existing.isSome
  | none => false

/-- The expiration a `Set` stores: the prior entry's when
`keep_existing_expiration` is set and a prior entry exists, the command's
otherwise. -/
def setExpiration (set : SetCommand) (cur : Option Entry) : Option Nat :=
  if set.keep_existing_expiration then
    match cur with
    | some ev => ev.expiration
    | none => set.expiration
  else set.expiration

/-- The successful path of `execute_set_operation`: with a valid value, a
working layered read and a passing check, the command stores the new entry
(with `last_updated = now`) and reports via `setOutcome`. -/
theorem execute_set_eq_of_pass (s : KeyValueState) (ns : Option Key) (key : Key)
    (set : SetCommand) (now : Nat) (cur : Option Entry)
    (hval : set.value.isValid = true)
    (hget : s.get (full_key ns key) = .ok cur)
    (hpass : checkFailed set.check cur = false) :
    s.execute_set_operation ns key set now =
      (.ok (setOutcome set cur),
       (s.update_key_expiration (full_key ns key) (setExpiration set cur)).set
         (full_key ns key) ⟨set.value, setExpiration set cur, now⟩) := by
  obtain ⟨v, exp, kee, chk, rpv⟩ := set
  simp only [checkFailed] at hpass
  cases chk with
  | none =>
    by_cases hfetch : ((none : Option KeyCheck).isSome || rpv || kee) = true
    · simp only [KeyValueState.execute_set_operation, hval, if_pos rfl, hfetch, if_pos rfl,
        hget]
      cases cur with
      | none =>
        cases hk : kee <;>
          simp [setExpiration, KeyValueState.set, hk]
      | some e =>
        cases hk : kee <;>
          simp [setExpiration, KeyValueState.set, hk]
    · have hrep :=
        replace_of_get (s.update_key_expiration (full_key ns key) exp)
          (full_key ns key) ⟨v, exp, now⟩ cur hget
      simp only [Bool.or_eq_true, Option.isSome_none, Bool.false_eq_true, false_or,
        not_or, Bool.not_eq_true] at hfetch
      obtain ⟨hr, hk⟩ := hfetch
      subst hr hk
      simp only [KeyValueState.execute_set_operation, hval, if_pos rfl, Option.isSome_none,
        Bool.or_self, Bool.false_eq_true, if_false, hrep]
      simp [setExpiration, KeyValueState.set]
  | some kc =>
    cases kc with
    | onlyIfPresent =>
      cases cur with
      | none => simp [Option.isNone] at hpass
      | some e =>
        simp only [KeyValueState.execute_set_operation, hval, if_pos rfl,
          Option.isSome_some, Bool.true_or, if_pos rfl, hget]
        cases hk : kee <;> simp [setExpiration, KeyValueState.set, hk]
    | onlyIfVacant =>
      cases cur with
      | some e => simp [Option.isSome] at hpass
      | none =>
        simp only [KeyValueState.execute_set_operation, hval, if_pos rfl,
          Option.isSome_some, Bool.true_or, if_pos rfl, hget]
        cases hk : kee <;> simp [setExpiration, KeyValueState.set, hk]

/-- The refused path of `execute_set_operation`: a failing check returns
`NotChanged` and leaves the state untouched. -/
theorem execute_set_eq_of_fail (s : KeyValueState) (ns : Option Key) (key : Key)
    (set : SetCommand) (now : Nat) (cur : Option Entry)
    (hval : set.value.isValid = true)
    (hget : s.get (full_key ns key) = .ok cur)
    (hfail : checkFailed set.check cur = true) :
    s.execute_set_operation ns key set now = (.ok (.status .notChanged), s) := by
  obtain ⟨v, exp, kee, chk, rpv⟩ := set
  simp only [checkFailed] at hfail
  cases chk with
  | none => simp at hfail
  | some kc =>
    cases kc with
    | onlyIfPresent =>
      cases cur with
      | some e => simp [Option.isNone] at hfail
      | none =>
        simp only [KeyValueState.execute_set_operation, hval, if_pos rfl,
          Option.isSome_some, Bool.true_or, if_pos rfl, hget]
        simp
    | onlyIfVacant =>
      cases cur with
      | none => simp [Option.isSome] at hfail
      | some e =>
        simp only [KeyValueState.execute_set_operation, hval, if_pos rfl,
          Option.isSome_some, Bool.true_or, if_pos rfl, hget]
        simp

/-- C1: with a valid value and a working layered read, a `Set` whose check
fails returns `NotChanged` and writes nothing; otherwise the result is the
prior visible value when `return_previous_value` is set, else `Inserted` when
the prior visible entry was absent and `Updated` when it was present. -/
theorem set_operation_spec (s : KeyValueState) (ns : Option Key) (key : Key)
    (set : SetCommand) (now : Nat) (cur : Option Entry)
    (hval : set.value.isValid = true)
    (hget : s.get (full_key ns key) = .ok cur) :
    (checkFailed set.check cur = true →
      s.execute_set_operation ns key set now = (.ok (.status .notChanged), s)) ∧
    (checkFailed set.check cur = false →
      (s.execute_set_operation ns key set now).1 =
        .ok (if set.return_previous_value then .value (cur.map Entry.value)
             else if cur.isNone then .status .inserted
             else .status .updated)) := by
  constructor
  · intro hfail
    exact execute_set_eq_of_fail s ns key set now cur hval hget hfail
  · intro hpass
    rw [execute_set_eq_of_pass s ns key set now cur hval hget hpass]
    rfl

/-- A concrete one-entry state used to witness C1. -/
def witnessState1 : KeyValueState :=
  { disk := fun _ => .ok none
    expiring_keys := []
    expiration_order := []
    dirty_keys := [([nul, Char.ofNat 107], some ⟨.bytes [1], none, 0⟩)]
    keys_being_persisted := none
    last_commit := 0
    persistence := .immediate }

theorem set_operation_spec_witness :
    ((Value.bytes [2]).isValid = true ∧
      witnessState1.get (full_key none [Char.ofNat 107]) =
        .ok (some ⟨.bytes [1], none, 0⟩) ∧
      checkFailed (some .onlyIfVacant) (some ⟨.bytes [1], none, 0⟩) = true) ∧
    witnessState1.execute_set_operation none [Char.ofNat 107]
        ⟨.bytes [2], none, false, some .onlyIfVacant, false⟩ 5 =
      (.ok (.status .notChanged), witnessState1) :=
  ⟨⟨rfl, rfl, rfl⟩,
   (set_operation_spec witnessState1 none [Char.ofNat 107]
      ⟨.bytes [2], none, false, some .onlyIfVacant, false⟩ 5
      (some ⟨.bytes [1], none, 0⟩) rfl rfl).1 rfl⟩

/-- The successful path of `execute_numeric_operation` for a numeric (or
absent, defaulting to `UnsignedInteger 0`) existing value: the new numeric is
validated, stored and returned; the stored entry keeps the prior
`last_updated` when the key was present and uses `now` otherwise. -/
theorem execute_numeric_eq (s : KeyValueState) (ns : Option Key) (key : Key)
    (amount : Numeric) (sat : Bool) (now : Nat) (cur : Option Entry)
    (existing : Numeric) (op : Numeric → Numeric → Bool → Numeric)
    (hget : s.get (full_key ns key) = .ok cur)
    (hnum : (cur.getD ⟨.numeric (.unsignedInteger 0), none, now⟩).value =
      .numeric existing)
    (hvalid : (op existing amount sat).isValid = true) :
    s.execute_numeric_operation ns key amount sat now op =
      (.ok (.value (some (.numeric (op existing amount sat)))),
       s.set (full_key ns key)
         { cur.getD ⟨.numeric (.unsignedInteger 0), none, now⟩ with
             value := .numeric (op existing amount sat) }) := by
  simp only [KeyValueState.execute_numeric_operation, hget]
  cases cur with
  | none =>
    simp only [Option.getD_none] at hnum ⊢
    cases hnum
    simp [hvalid]
  | some e =>
    simp only [Option.getD_some] at hnum ⊢
    rw [hnum]
    simp [hvalid]

/-- C5: Increment/Decrement with an `Integer` amount: an absent key reads as
`UnsignedInteger 0`; the new value is `Integer(as_i64_lossy(existing) ± a)`
computed saturating or wrapping (two's complement, modulo `2^64`), and it is
both stored in `dirty_keys` and returned. -/
theorem numeric_integer_operation_spec (s : KeyValueState) (ns : Option Key)
    (key : Key) (a : Int) (sat : Bool) (now : Nat) (cur : Option Entry)
    (existing : Numeric)
    (hget : s.get (full_key ns key) = .ok cur)
    (hnum : match cur with
            | none => existing = .unsignedInteger 0
            | some e => e.value = .numeric existing) :
    ((s.execute_increment_operation ns key (.integer a) sat now).1 =
      .ok (.value (some (.numeric (.integer
        (if sat then satI64 (existing.as_i64_lossy sat + a)
         else wrapI64 (existing.as_i64_lossy sat + a)))))) ∧
     ∃ en, mapLookup (s.execute_increment_operation ns key (.integer a) sat now).2.dirty_keys
         (full_key ns key) = some (some en) ∧
       en.value = .numeric (.integer
         (if sat then satI64 (existing.as_i64_lossy sat + a)
          else wrapI64 (existing.as_i64_lossy sat + a)))) ∧
    ((s.execute_decrement_operation ns key (.integer a) sat now).1 =
      .ok (.value (some (.numeric (.integer
        (if sat then satI64 (existing.as_i64_lossy sat - a)
         else wrapI64 (existing.as_i64_lossy sat - a)))))) ∧
     ∃ en, mapLookup (s.execute_decrement_operation ns key (.integer a) sat now).2.dirty_keys
         (full_key ns key) = some (some en) ∧
       en.value = .numeric (.integer
         (if sat then satI64 (existing.as_i64_lossy sat - a)
          else wrapI64 (existing.as_i64_lossy sat - a)))) := by
  have hnum' : (cur.getD ⟨.numeric (.unsignedInteger 0), none, now⟩).value =
      .numeric existing := by
    cases cur with
    | none => simp [hnum]
    | some e => simpa using hnum
  have hinc := execute_numeric_eq s ns key (.integer a) sat now cur existing increment
    hget hnum' rfl
  have hdec := execute_numeric_eq s ns key (.integer a) sat now cur existing decrement
    hget hnum' rfl
  refine ⟨⟨?_, ?_⟩, ?_, ?_⟩
  · rw [show s.execute_increment_operation ns key (.integer a) sat now =
        s.execute_numeric_operation ns key (.integer a) sat now increment from rfl, hinc]
    rfl
  · rw [show s.execute_increment_operation ns key (.integer a) sat now =
        s.execute_numeric_operation ns key (.integer a) sat now increment from rfl, hinc]
    exact ⟨_, mapLookup_mapInsert_self _ _ _, rfl⟩
  · rw [show s.execute_decrement_operation ns key (.integer a) sat now =
        s.execute_numeric_operation ns key (.integer a) sat now decrement from rfl, hdec]
    rfl
  · rw [show s.execute_decrement_operation ns key (.integer a) sat now =
        s.execute_numeric_operation ns key (.integer a) sat now decrement from rfl, hdec]
    exact ⟨_, mapLookup_mapInsert_self _ _ _, rfl⟩

/-- A concrete empty state used to witness C5. -/
def witnessState5 : KeyValueState :=
  { disk := fun _ => .ok none
    expiring_keys := []
    expiration_order := []
    dirty_keys := []
    keys_being_persisted := none
    last_commit := 0
    persistence := .immediate }

theorem numeric_integer_operation_spec_witness :
    (witnessState5.get (full_key none [Char.ofNat 107]) = .ok none ∧
      (Numeric.unsignedInteger 0 : Numeric) = .unsignedInteger 0) ∧
    (witnessState5.execute_increment_operation none [Char.ofNat 107]
        (.integer 1) true 5).1 =
      .ok (.value (some (.numeric (.integer
        (if true then satI64 ((Numeric.unsignedInteger 0).as_i64_lossy true + 1)
         else wrapI64 ((Numeric.unsignedInteger 0).as_i64_lossy true + 1)))))) :=
  ⟨⟨rfl, rfl⟩,
   (numeric_integer_operation_spec witnessState5 none [Char.ofNat 107] 1 true 5
      none (.unsignedInteger 0) rfl rfl).1.1⟩

/-- A concrete state holding `Integer 5` with `last_updated = 3`, used for
the C4 counterexample. -/
def witnessState4 : KeyValueState :=
  { disk := fun _ => .ok none
    expiring_keys := []
    expiration_order := []
    dirty_keys := [([nul, Char.ofNat 107], some ⟨.numeric (.integer 5), none, 3⟩)]
    keys_being_persisted := none
    last_commit := 0
    persistence := .immediate }

/-- C4 counterexample: incrementing an existing key at timestamp 10 succeeds
but leaves the stored entry's `last_updated` at its prior value 3 —
`execute_numeric_operation` only stamps `now` on the synthesised default for
an absent key. -/
theorem last_updated_counterexample :
    (witnessState4.execute_increment_operation none [Char.ofNat 107]
        (.integer 1) true 10).1 = .ok (.value (some (.numeric (.integer 6)))) ∧
    mapLookup (witnessState4.execute_increment_operation none [Char.ofNat 107]
        (.integer 1) true 10).2.dirty_keys (full_key none [Char.ofNat 107]) =
      some (some ⟨.numeric (.integer 6), none, 3⟩) ∧
    (3 : Nat) ≠ 10 :=
  ⟨rfl, rfl, by decide⟩

/-- C4 amended: a successful `Set` stores `last_updated = now`, while a
successful Increment/Decrement preserves an existing entry's `last_updated`
and stamps `now` only when the key was visibly absent. -/
theorem last_updated_spec (s : KeyValueState) (ns : Option Key) (key : Key) (now : Nat) :
    (∀ (set : SetCommand) (cur : Option Entry), set.value.isValid = true →
      s.get (full_key ns key) = .ok cur → checkFailed set.check cur = false →
      ∃ en, mapLookup (s.execute_set_operation ns key set now).2.dirty_keys
          (full_key ns key) = some (some en) ∧ en.last_updated = now) ∧
    (∀ (amount : Numeric) (sat : Bool) (cur : Option Entry) (existing : Numeric),
      s.get (full_key ns key) = .ok cur →
      (cur.getD ⟨.numeric (.unsignedInteger 0), none, now⟩).value = .numeric existing →
      (increment existing amount sat).isValid = true →
      ∃ en, mapLookup (s.execute_increment_operation ns key amount sat now).2.dirty_keys
          (full_key ns key) = some (some en) ∧
        en.last_updated = (cur.getD ⟨.numeric (.unsignedInteger 0), none, now⟩).last_updated) ∧
    (∀ (amount : Numeric) (sat : Bool) (cur : Option Entry) (existing : Numeric),
      s.get (full_key ns key) = .ok cur →
      (cur.getD ⟨.numeric (.unsignedInteger 0), none, now⟩).value = .numeric existing →
      (decrement existing amount sat).isValid = true →
      ∃ en, mapLookup (s.execute_decrement_operation ns key amount sat now).2.dirty_keys
          (full_key ns key) = some (some en) ∧
        en.last_updated = (cur.getD ⟨.numeric (.unsignedInteger 0), none, now⟩).last_updated) := by
  refine ⟨?_, ?_, ?_⟩
  · intro set cur hval hget hpass
    rw [execute_set_eq_of_pass s ns key set now cur hval hget hpass]
    exact ⟨_, mapLookup_mapInsert_self _ _ _, rfl⟩
  · intro amount sat cur existing hget hnum hvalid
    rw [show s.execute_increment_operation ns key amount sat now =
        s.execute_numeric_operation ns key amount sat now increment from rfl,
      execute_numeric_eq s ns key amount sat now cur existing increment hget hnum hvalid]
    exact ⟨_, mapLookup_mapInsert_self _ _ _, rfl⟩
  · intro amount sat cur existing hget hnum hvalid
    rw [show s.execute_decrement_operation ns key amount sat now =
        s.execute_numeric_operation ns key amount sat now decrement from rfl,
      execute_numeric_eq s ns key amount sat now cur existing decrement hget hnum hvalid]
    exact ⟨_, mapLookup_mapInsert_self _ _ _, rfl⟩

theorem last_updated_spec_witness :
    ((Value.bytes [2]).isValid = true ∧
      witnessState5.get (full_key none [Char.ofNat 108]) = .ok none ∧
      checkFailed none none = false) ∧
    ∃ en, mapLookup (witnessState5.execute_set_operation none [Char.ofNat 108]
        ⟨.bytes [2], none, false, none, false⟩ 7).2.dirty_keys
        (full_key none [Char.ofNat 108]) = some (some en) ∧ en.last_updated = 7 :=
  ⟨⟨rfl, rfl, rfl⟩,
   (last_updated_spec witnessState5 none [Char.ofNat 108] 7).1
     ⟨.bytes [2], none, false, none, false⟩ none rfl rfl rfl⟩

/-- Specialisation of `replace` to a failing layered read: the state is
untouched. -/
theorem replace_err (s : KeyValueState) (k : Key) (v : Entry)
    (h : s.get k = .error ()) : s.replace k v = (.error (), s) := by
  unfold KeyValueState.replace
  unfold KeyValueState.get at h
  cases hl : mapLookup s.dirty_keys k with
  | some d => rw [hl] at h; cases h
  | none =>
    rw [hl] at h
    cases hp : s.keys_being_persisted.bind fun keys => mapLookup keys k with
    | some p => rw [hp] at h; cases h
    | none =>
      rw [hp] at h
      have hd : s.disk k = .error () := h
      simp [hp, hd]

/-- A concrete state whose disk always fails, used for the C3
counterexample. -/
def witnessState3 : KeyValueState :=
  { disk := fun _ => .error ()
    expiring_keys := []
    expiration_order := []
    dirty_keys := []
    keys_being_persisted := none
    last_commit := 0
    persistence := .immediate }

/-- C3 counterexample: a `Set` carrying an expiration whose subsequent
`replace` hits a storage failure returns an error, yet it has already
inserted the key into `expiring_keys`/`expiration_order` — the expiration
structures are not as they were at dispatch. -/
theorem error_atomicity_counterexample :
    (witnessState3.execute_set_operation none [Char.ofNat 107]
        ⟨.bytes [], some 5, false, none, false⟩ 1).1 = .error .storage ∧
    witnessState3.expiring_keys = [] ∧ witnessState3.expiration_order = [] ∧
    (witnessState3.execute_set_operation none [Char.ofNat 107]
        ⟨.bytes [], some 5, false, none, false⟩ 1).2.expiring_keys =
      [(full_key none [Char.ofNat 107], 5)] ∧
    (witnessState3.execute_set_operation none [Char.ofNat 107]
        ⟨.bytes [], some 5, false, none, false⟩ 1).2.expiration_order =
      [full_key none [Char.ofNat 107]] :=
  ⟨rfl, rfl, rfl, rfl, rfl⟩

/-- C3 amended: a command that returns an error never mutates `dirty_keys`,
and a failing Increment/Decrement leaves the entire state unchanged; a
failing `Set` or `Delete`/`Get(delete)` may however already have applied its
expiration-index update before the storage failure. -/
theorem error_preserves_state (s : KeyValueState) (ns : Option Key) (key : Key)
    (cmd : Command) (now : Nat) (e : KvError)
    (herr : (s.execute_command ns key cmd now).1 = .error e) :
    (s.execute_command ns key cmd now).2.dirty_keys = s.dirty_keys ∧
    (∀ amount sat, cmd = .increment amount sat ∨ cmd = .decrement amount sat →
      (s.execute_command ns key cmd now).2 = s) := by
  cases cmd with
  | set c =>
    refine ⟨?_, by rintro amount sat (h | h) <;> cases h⟩
    simp only [KeyValueState.execute_command] at herr ⊢
    by_cases hv : c.value.isValid = true
    · by_cases hfetch : (c.check.isSome || c.return_previous_value ||
        c.keep_existing_expiration) = true
      · cases hget : s.get (full_key ns key) with
        | error u =>
          cases u
          simp [KeyValueState.execute_set_operation, hv, hfetch, hget]
        | ok cur =>
          rcases hfail : checkFailed c.check cur with hf | hf
          · rw [execute_set_eq_of_pass s ns key c now cur hv hget hfail] at herr
            cases herr
          · rw [execute_set_eq_of_fail s ns key c now cur hv hget hfail] at herr
            cases herr
      · cases hget : s.get (full_key ns key) with
        | error u =>
          cases u
          have hrep := replace_err (s.update_key_expiration (full_key ns key)
            c.expiration) (full_key ns key) ⟨c.value, c.expiration, now⟩ hget
          simp only [KeyValueState.execute_set_operation, hv, if_pos rfl,
            if_neg hfetch, hrep]
          exact update_key_expiration_dirty _ _ _
        | ok cur =>
          rcases hfail : checkFailed c.check cur with hf | hf
          · rw [execute_set_eq_of_pass s ns key c now cur hv hget hfail] at herr
            cases herr
          · rw [execute_set_eq_of_fail s ns key c now cur hv hget hfail] at herr
            cases herr
    · have hv' : c.value.isValid = false := by
        cases hb : c.value.isValid
        · rfl
        · exact absurd hb hv
      simp only [KeyValueState.execute_set_operation, hv', Bool.false_eq_true, if_false]
  | get delete =>
    refine ⟨?_, by rintro amount sat (h | h) <;> cases h⟩
    simp only [KeyValueState.execute_command] at herr ⊢
    cases delete with
    | true =>
      cases hget : s.get (full_key ns key) with
      | error u =>
        cases u
        simp only [KeyValueState.execute_get_operation, if_pos rfl,
          remove_err s (full_key ns key) hget]
        exact update_key_expiration_dirty _ _ _
      | ok cur =>
        simp only [KeyValueState.execute_get_operation, if_pos rfl,
          remove_ok s (full_key ns key) cur hget] at herr
        cases herr
    | false =>
      cases hget : s.get (full_key ns key) with
      | error u =>
        cases u
        simp only [KeyValueState.execute_get_operation, Bool.false_eq_true, if_false,
          hget]
      | ok cur =>
        simp only [KeyValueState.execute_get_operation, Bool.false_eq_true, if_false,
          hget] at herr
        cases herr
  | delete =>
    refine ⟨?_, by rintro amount sat (h | h) <;> cases h⟩
    simp only [KeyValueState.execute_command] at herr ⊢
    cases hget : s.get (full_key ns key) with
    | error u =>
      cases u
      simp only [KeyValueState.execute_delete_operation,
        remove_err s (full_key ns key) hget]
      exact update_key_expiration_dirty _ _ _
    | ok cur =>
      have hrem := remove_ok s (full_key ns key) cur hget
      simp only [KeyValueState.execute_delete_operation, hrem] at herr
      cases cur with
      | none => cases herr
      | some v => cases herr
  | increment amount sat =>
    have key_fact : ∀ u : KeyValueState, u = s →
        u.dirty_keys = s.dirty_keys := fun u hu => by rw [hu]
    have hstate : (s.execute_command ns key (.increment amount sat) now).2 = s := by
      simp only [KeyValueState.execute_command,
        KeyValueState.execute_increment_operation] at herr ⊢
      cases hget : s.get (full_key ns key) with
      | error u =>
        cases u
        simp only [KeyValueState.execute_numeric_operation, hget]
      | ok cur =>
        simp only [KeyValueState.execute_numeric_operation, hget] at herr ⊢
        cases hval : (cur.getD ⟨.numeric (.unsignedInteger 0), none, now⟩).value with
        | bytes b => rfl
        | numeric existing =>
          rw [hval] at herr
          cases hvalid : (increment existing amount sat).isValid with
          | true => simp [hvalid] at herr
          | false => simp [hvalid]
    exact ⟨key_fact _ hstate, fun _ _ _ => hstate⟩
  | decrement amount sat =>
    have key_fact : ∀ u : KeyValueState, u = s →
        u.dirty_keys = s.dirty_keys := fun u hu => by rw [hu]
    have hstate : (s.execute_command ns key (.decrement amount sat) now).2 = s := by
      simp only [KeyValueState.execute_command,
        KeyValueState.execute_decrement_operation] at herr ⊢
      cases hget : s.get (full_key ns key) with
      | error u =>
        cases u
        simp only [KeyValueState.execute_numeric_operation, hget]
      | ok cur =>
        simp only [KeyValueState.execute_numeric_operation, hget] at herr ⊢
        cases hval : (cur.getD ⟨.numeric (.unsignedInteger 0), none, now⟩).value with
        | bytes b => rfl
        | numeric existing =>
          rw [hval] at herr
          cases hvalid : (decrement existing amount sat).isValid with
          | true => simp [hvalid] at herr
          | false => simp [hvalid]
    exact ⟨key_fact _ hstate, fun _ _ _ => hstate⟩

/-- A concrete state holding a bytes value, used to witness the amended C3
via a failing (type-mismatch) increment. -/
def witnessState3b : KeyValueState :=
  { disk := fun _ => .ok none
    expiring_keys := []
    expiration_order := []
    dirty_keys := [([nul, Char.ofNat 107], some ⟨.bytes [9], none, 0⟩)]
    keys_being_persisted := none
    last_commit := 0
    persistence := .immediate }

theorem error_preserves_state_witness :
    (witnessState3b.execute_command none [Char.ofNat 107]
        (.increment (.integer 1) false) 4).1 = .error .typeMismatch ∧
    (witnessState3b.execute_command none [Char.ofNat 107]
        (.increment (.integer 1) false) 4).2.dirty_keys = witnessState3b.dirty_keys :=
  ⟨rfl,
   (error_preserves_state witnessState3b none [Char.ofNat 107]
      (.increment (.integer 1) false) 4 .typeMismatch rfl).1⟩

/-- Lexicographic strict order on keys by character (equivalently, UTF-8
byte) value: the ascending order `BTreeMap` iterates in. -/
def keyLtB : Key → Key → Bool
  | [], [] => false
  | [], _ :: _ => true
  | _ :: _, [] => false
  | a :: as, b :: bs => if a < b then true else if a = b then keyLtB as bs else false

theorem keyLtB_irrefl (a : Key) : keyLtB a a = false := by
  induction a with
  | nil => rfl
  | cons c rest ih => simp [keyLtB, ih]

/-- The full keys recorded by the compare-swap pass form a sublist of the
batch's keys. -/
theorem persist_changed_keys_sublist (tree : Key → Option Entry)
    (batch : List (Key × Option Entry))
    (hkeys : ∀ p ∈ batch, (split_key p.1).isSome) :
    ((persist_changed_keys tree batch).map fun ck => full_key ck.namespace_ ck.key).Sublist
      (batch.map Prod.fst) := by
  induction batch with
  | nil => simp [persist_changed_keys]
  | cons p rest ih =>
    obtain ⟨fk, v⟩ := p
    have hk : (split_key fk).isSome := hkeys (fk, v) (List.mem_cons_self _ _)
    obtain ⟨⟨ns, k⟩, hsplit⟩ := Option.isSome_iff_exists.mp hk
    have hfull : full_key ns k = fk := full_key_split_key fk ns k hsplit
    have ihrest := ih fun q hq => hkeys q (List.mem_cons_of_mem _ hq)
    cases v with
    | some e =>
      simp only [persist_changed_keys, hsplit, Option.getD_some, List.map_cons]
      exact hfull ▸ List.Sublist.cons₂ _ ihrest
    | none =>
      by_cases ht : (tree fk).isSome
      · simp only [persist_changed_keys, hsplit, Option.getD_some, ht, if_pos rfl,
          List.map_cons]
        exact hfull ▸ List.Sublist.cons₂ _ ihrest
      · simp only [persist_changed_keys, hsplit, Option.getD_some]
        rw [if_neg ht]
        exact List.Sublist.cons _ ihrest

/-- Every recorded `ChangedKey` arises from a batch entry: a `deleted=false`
entry from a `Some` value, a `deleted=true` entry from a `None` value the
tree held. -/
theorem persist_changed_keys_sound (tree : Key → Option Entry)
    (batch : List (Key × Option Entry))
    (hkeys : ∀ p ∈ batch, (split_key p.1).isSome) :
    ∀ ck ∈ persist_changed_keys tree batch,
      ∃ v, (full_key ck.namespace_ ck.key, v) ∈ batch ∧
        ((∃ e, v = some e) ∧ ck.deleted = false ∨
          v = none ∧ (tree (full_key ck.namespace_ ck.key)).isSome ∧ ck.deleted = true) := by
  induction batch with
  | nil => simp [persist_changed_keys]
  | cons p rest ih =>
    obtain ⟨fk, v⟩ := p
    have hk : (split_key fk).isSome := hkeys (fk, v) (List.mem_cons_self _ _)
    obtain ⟨⟨ns, k⟩, hsplit⟩ := Option.isSome_iff_exists.mp hk
    have hfull : full_key ns k = fk := full_key_split_key fk ns k hsplit
    have ihrest := ih fun q hq => hkeys q (List.mem_cons_of_mem _ hq)
    intro ck hck
    cases v with
    | some e =>
      simp only [persist_changed_keys, hsplit, Option.getD_some, List.mem_cons] at hck
      rcases hck with hck | hck
      · subst hck
        exact ⟨some e, by simp [hfull], Or.inl ⟨⟨e, rfl⟩, rfl⟩⟩
      · obtain ⟨v', hmem, hcond⟩ := ihrest ck hck
        exact ⟨v', List.mem_cons_of_mem _ hmem, hcond⟩
    | none =>
      by_cases ht : (tree fk).isSome
      · simp only [persist_changed_keys, hsplit, Option.getD_some, if_pos ht,
          List.mem_cons] at hck
        rcases hck with hck | hck
        · subst hck
          exact ⟨none, by simp [hfull], Or.inr ⟨rfl, by simp [hfull, ht], rfl⟩⟩
        · obtain ⟨v', hmem, hcond⟩ := ihrest ck hck
          exact ⟨v', List.mem_cons_of_mem _ hmem, hcond⟩
      · simp only [persist_changed_keys, hsplit, Option.getD_some, if_neg ht] at hck
        obtain ⟨v', hmem, hcond⟩ := ihrest ck hck
        exact ⟨v', List.mem_cons_of_mem _ hmem, hcond⟩

/-- C8: in a persistence pass over a staged batch (keys ascending), the
recorded `ChangedKey` list is in ascending full-key order and contains one
`deleted=false` entry for every batch key carrying `Some` (even when the
tree held nothing), one `deleted=true` entry for every `None` batch key the
tree held, and nothing for a `None` batch key the tree did not hold. -/
theorem persist_keys_changed_spec (tree : Key → Option Entry)
    (batch : List (Key × Option Entry))
    (hsorted : batch.Pairwise fun p q => keyLtB p.1 q.1 = true)
    (hkeys : ∀ p ∈ batch, (split_key p.1).isSome) :
    ((persist_changed_keys tree batch).map fun ck => full_key ck.namespace_ ck.key).Pairwise
      (fun a b => keyLtB a b = true) ∧
    (∀ fk e, (fk, some e) ∈ batch → ∃ ns k, split_key fk = some (ns, k) ∧
      (⟨ns, k, false⟩ : ChangedKey) ∈ persist_changed_keys tree batch) ∧
    (∀ fk, (fk, none) ∈ batch → (tree fk).isSome → ∃ ns k, split_key fk = some (ns, k) ∧
      (⟨ns, k, true⟩ : ChangedKey) ∈ persist_changed_keys tree batch) ∧
    (∀ fk, (fk, none) ∈ batch → tree fk = none →
      ∀ ck ∈ persist_changed_keys tree batch, full_key ck.namespace_ ck.key ≠ fk) ∧
    (∀ ck ∈ persist_changed_keys tree batch,
      ∃ v, (full_key ck.namespace_ ck.key, v) ∈ batch ∧
        ((∃ e, v = some e) ∧ ck.deleted = false ∨
          v = none ∧ (tree (full_key ck.namespace_ ck.key)).isSome ∧ ck.deleted = true)) := by
  have hmapsorted : (batch.map Prod.fst).Pairwise fun a b => keyLtB a b = true :=
    List.pairwise_map.mpr hsorted
  refine ⟨List.Pairwise.sublist (persist_changed_keys_sublist tree batch hkeys)
      hmapsorted, ?_, ?_, ?_, persist_changed_keys_sound tree batch hkeys⟩
  · intro fk e hmem
    have hk : (split_key fk).isSome := hkeys (fk, some e) hmem
    obtain ⟨⟨ns, k⟩, hsplit⟩ := Option.isSome_iff_exists.mp hk
    refine ⟨ns, k, hsplit, ?_⟩
    clear hsorted hmapsorted
    induction batch with
    | nil => cases hmem
    | cons p rest ih =>
      obtain ⟨fk', v'⟩ := p
      have hk' : (split_key fk').isSome := hkeys (fk', v') (List.mem_cons_self _ _)
      obtain ⟨⟨ns', k'⟩, hsplit'⟩ := Option.isSome_iff_exists.mp hk'
      rcases List.mem_cons.mp hmem with hhead | htail
      · injection hhead with h1 h2
        subst h1 h2
        rw [hsplit'] at hsplit
        injection hsplit with hs
        injection hs with hs1 hs2
        subst hs1 hs2
        simp [persist_changed_keys, hsplit']
      · have := ih (fun q hq => hkeys q (List.mem_cons_of_mem _ hq)) htail
        cases v' with
        | some e' =>
          simp only [persist_changed_keys, hsplit', Option.getD_some, List.mem_cons]
          exact Or.inr this
        | none =>
          by_cases ht : (tree fk').isSome
          · simp only [persist_changed_keys, hsplit', Option.getD_some, if_pos ht,
              List.mem_cons]
            exact Or.inr this
          · simp only [persist_changed_keys, hsplit', Option.getD_some, if_neg ht]
            exact this
  · intro fk hmem htree
    have hk : (split_key fk).isSome := hkeys (fk, none) hmem
    obtain ⟨⟨ns, k⟩, hsplit⟩ := Option.isSome_iff_exists.mp hk
    refine ⟨ns, k, hsplit, ?_⟩
    clear hsorted hmapsorted
    induction batch with
    | nil => cases hmem
    | cons p rest ih =>
      obtain ⟨fk', v'⟩ := p
      have hk' : (split_key fk').isSome := hkeys (fk', v') (List.mem_cons_self _ _)
      obtain ⟨⟨ns', k'⟩, hsplit'⟩ := Option.isSome_iff_exists.mp hk'
      rcases List.mem_cons.mp hmem with hhead | htail
      · injection hhead with h1 h2
        subst h1 h2
        rw [hsplit'] at hsplit
        injection hsplit with hs
        injection hs with hs1 hs2
        subst hs1 hs2
        simp [persist_changed_keys, hsplit', htree]
      · have := ih (fun q hq => hkeys q (List.mem_cons_of_mem _ hq)) htail
        cases v' with
        | some e' =>
          simp only [persist_changed_keys, hsplit', Option.getD_some, List.mem_cons]
          exact Or.inr this
        | none =>
          by_cases ht : (tree fk').isSome
          · simp only [persist_changed_keys, hsplit', Option.getD_some, if_pos ht,
              List.mem_cons]
            exact Or.inr this
          · simp only [persist_changed_keys, hsplit', Option.getD_some, if_neg ht]
            exact this
  · intro fk hmem htree ck hck hful
    obtain ⟨v, hvmem, hcond⟩ := persist_changed_keys_sound tree batch hkeys ck hck
    rw [hful] at hvmem hcond
    have hnodup : (batch.map Prod.fst).Nodup := by
      refine List.Pairwise.imp ?_ hmapsorted
      intro a b hab
      intro heq
      rw [heq, keyLtB_irrefl] at hab
      cases hab
    have hveq : v = none := by
      have : (fk, v) = (fk, none) :=
        List.inj_on_of_nodup_map hnodup hvmem hmem rfl
      injection this with _ hv
    subst hveq
    rcases hcond with ⟨⟨e, he⟩, _⟩ | ⟨_, hsome, _⟩
    · cases he
    · rw [htree] at hsome
      cases hsome

/-- A concrete tree and batch used to witness C8. -/
def witnessTree8 : Key → Option Entry :=
  fun k => if k = [nul, Char.ofNat 98] then some ⟨.bytes [7], none, 0⟩ else none

/-- The concrete staged batch used to witness C8. -/
def witnessBatch8 : List (Key × Option Entry) :=
  [([nul, Char.ofNat 97], some ⟨.bytes [1], none, 0⟩),
   ([nul, Char.ofNat 98], none),
   ([nul, Char.ofNat 99], none)]

theorem persist_keys_changed_spec_witness :
    (witnessBatch8.Pairwise (fun p q => keyLtB p.1 q.1 = true) ∧
      ∀ p ∈ witnessBatch8, (split_key p.1).isSome) ∧
    ((persist_changed_keys witnessTree8 witnessBatch8).map
      fun ck => full_key ck.namespace_ ck.key).Pairwise
      (fun a b => keyLtB a b = true) :=
  ⟨⟨by decide, by decide⟩,
   (persist_keys_changed_spec witnessTree8 witnessBatch8 (by decide) (by decide)).1⟩

/-- The position scan of `update_key_expiration` splits the queue at the
first entry whose timestamp exceeds `exp`: everything before has timestamp
at most `exp`, and the suffix (if any) starts strictly above `exp`. -/
theorem insertExpiration_split (ek : List (Key × Nat)) (exp : Nat) (key : Key)
    (l : List Key) :
    ∃ pre suf, l = pre ++ suf ∧
      insertExpiration ek exp key l = pre ++ key :: suf ∧
      (∀ j ∈ pre, tsOf ek j ≤ exp) ∧
      (suf = [] ∨ ∃ j rest, suf = j :: rest ∧ exp < tsOf ek j) := by
  induction l with
  | nil => exact ⟨[], [], rfl, rfl, by simp, Or.inl rfl⟩
  | cons j rest ih =>
    by_cases hj : exp < tsOf ek j
    · refine ⟨[], j :: rest, rfl, ?_, by simp, Or.inr ⟨j, rest, rfl, hj⟩⟩
      simp [insertExpiration, hj]
    · obtain ⟨pre, suf, hl, hins, hpre, hsuf⟩ := ih
      refine ⟨j :: pre, suf, by simp [hl], ?_, ?_, hsuf⟩
      · simp only [insertExpiration, if_neg hj, hins, List.cons_append]
      · intro x hx
        rcases List.mem_cons.mp hx with hx | hx
        · subst hx
          exact Nat.le_of_not_lt hj
        · exact hpre x hx

/-- Everything in the suffix produced by `insertExpiration_split` lies
strictly above `exp` once the suffix is sorted. -/
theorem insertSuffix_gt (ek : List (Key × Nat)) (exp : Nat) (suf : List Key)
    (hsorted : suf.Pairwise fun a b => tsOf ek a ≤ tsOf ek b)
    (hsuf : suf = [] ∨ ∃ j rest, suf = j :: rest ∧ exp < tsOf ek j) :
    ∀ b ∈ suf, exp < tsOf ek b := by
  rcases hsuf with rfl | ⟨j, rest, rfl, hj⟩
  · simp
  · intro b hb
    rcases List.mem_cons.mp hb with rfl | hb
    · exact hj
    · exact lt_of_lt_of_le hj (List.rel_of_pairwise_cons hsorted hb)

/-- Invariant preservation for the insertion half of
`update_key_expiration`, stated over an order `ord1` from which the key has
already been removed. -/
theorem insert_case_invariant (ek : List (Key × Nat)) (ord1 : List Key)
    (k : Key) (exp : Nat)
    (h1 : ord1.Nodup) (h2k : k ∉ ord1)
    (h2 : (keysOf (mapInsert ek k exp)).Nodup)
    (h3 : ∀ j, j ≠ k → (j ∈ ord1 ↔ j ∈ keysOf (mapInsert ek k exp)))
    (hmemk : k ∈ keysOf (mapInsert ek k exp))
    (h4 : ord1.Pairwise fun a b => tsOf ek a ≤ tsOf ek b) :
    (insertExpiration ek exp k ord1).Nodup ∧
    (∀ j, j ∈ insertExpiration ek exp k ord1 ↔ j ∈ keysOf (mapInsert ek k exp)) ∧
    (insertExpiration ek exp k ord1).Pairwise
      (fun a b => tsOf (mapInsert ek k exp) a ≤ tsOf (mapInsert ek k exp) b) := by
  obtain ⟨pre, suf, hl, hins, hpre, hsuf⟩ := insertExpiration_split ek exp k ord1
  have hts_new : ∀ j, j ≠ k → tsOf (mapInsert ek k exp) j = tsOf ek j := by
    intro j hj
    unfold tsOf
    rw [mapLookup_mapInsert_ne ek k j exp hj]
  have hts_k : tsOf (mapInsert ek k exp) k = exp := by
    unfold tsOf
    rw [mapLookup_mapInsert_self]
    rfl
  have hmem_ne : ∀ j, j ∈ ord1 → j ≠ k := fun j hj hk => h2k (hk ▸ hj)
  have hpre_sub : pre.Sublist ord1 := hl ▸ List.sublist_append_left pre suf
  have hsuf_sub : suf.Sublist ord1 := hl ▸ List.sublist_append_right pre suf
  have hpre_mem : ∀ j ∈ pre, j ∈ ord1 := fun j hj => hpre_sub.mem hj
  have hsuf_mem : ∀ j ∈ suf, j ∈ ord1 := fun j hj => hsuf_sub.mem hj
  refine ⟨?_, ?_, ?_⟩
  · rw [hins, List.nodup_middle, List.nodup_cons]
    exact ⟨hl ▸ h2k, hl ▸ h1⟩
  · intro j
    rw [hins]
    constructor
    · intro hj
      rcases List.mem_append.mp hj with hj | hj
      · exact (h3 j (hmem_ne j (hpre_mem j hj))).mp (hpre_mem j hj)
      · rcases List.mem_cons.mp hj with rfl | hj
        · exact hmemk
        · exact (h3 j (hmem_ne j (hsuf_mem j hj))).mp (hsuf_mem j hj)
    · intro hj
      by_cases hjk : j = k
      · subst hjk
        exact List.mem_append.mpr (Or.inr (List.mem_cons_self _ _))
      · have : j ∈ ord1 := (h3 j hjk).mpr hj
        rw [hl] at this
        rcases List.mem_append.mp this with hm | hm
        · exact List.mem_append.mpr (Or.inl hm)
        · exact List.mem_append.mpr (Or.inr (List.mem_cons_of_mem _ hm))
  · rw [hins]
    have hsuf_gt : ∀ b ∈ suf, exp < tsOf ek b :=
      insertSuffix_gt ek exp suf (h4.sublist hsuf_sub) hsuf
    refine List.pairwise_append.mpr ⟨?_, ?_, ?_⟩
    · refine List.Pairwise.imp_of_mem ?_ (h4.sublist hpre_sub)
      intro a b ha hb hab
      rw [hts_new a (hmem_ne a (hpre_mem a ha)), hts_new b (hmem_ne b (hpre_mem b hb))]
      exact hab
    · rw [List.pairwise_cons]
      constructor
      · intro b hb
        rw [hts_k, hts_new b (hmem_ne b (hsuf_mem b hb))]
        exact Nat.le_of_lt (hsuf_gt b hb)
      · refine List.Pairwise.imp_of_mem ?_ (h4.sublist hsuf_sub)
        intro a b ha hb hab
        rw [hts_new a (hmem_ne a (hsuf_mem a ha)), hts_new b (hmem_ne b (hsuf_mem b hb))]
        exact hab
    · intro a ha b hb
      rcases List.mem_cons.mp hb with rfl | hb
      · rw [hts_k, hts_new a (hmem_ne a (hpre_mem a ha))]
        exact hpre a ha
      · have hcross := (List.pairwise_append.mp (hl ▸ h4)).2.2 a ha b hb
        rw [hts_new a (hmem_ne a (hpre_mem a ha)), hts_new b (hmem_ne b (hsuf_mem b hb))]
        exact hcross

/-- Invariant preservation for `update_key_expiration`, at the level of the
`(expiring_keys, expiration_order)` pair. -/
theorem updateKeyExpirationPair_invariant (ek : List (Key × Nat)) (ord : List Key)
    (k : Key) (e : Option Nat)
    (h1 : ord.Nodup) (h2 : (keysOf ek).Nodup)
    (h3 : ∀ j, j ∈ ord ↔ j ∈ keysOf ek)
    (h4 : ord.Pairwise fun a b => tsOf ek a ≤ tsOf ek b) :
    (updateKeyExpirationPair ek ord k e).2.Nodup ∧
    (keysOf (updateKeyExpirationPair ek ord k e).1).Nodup ∧
    (∀ j, j ∈ (updateKeyExpirationPair ek ord k e).2 ↔
      j ∈ keysOf (updateKeyExpirationPair ek ord k e).1) ∧
    (updateKeyExpirationPair ek ord k e).2.Pairwise
      (fun a b => tsOf (updateKeyExpirationPair ek ord k e).1 a ≤
        tsOf (updateKeyExpirationPair ek ord k e).1 b) := by
  cases e with
  | none =>
    by_cases hk : (mapLookup ek k).isSome
    · simp only [updateKeyExpirationPair, if_pos hk]
      refine ⟨h1.erase k, ?_, ?_, ?_⟩
      · rw [keysOf_mapErase]
        exact h2.erase k
      · intro j
        rw [keysOf_mapErase, h1.mem_erase_iff, h2.mem_erase_iff]
        exact and_congr_right fun _ => h3 j
      · refine List.Pairwise.imp_of_mem ?_ (h4.sublist (List.erase_sublist k ord))
        intro a b ha hb hab
        have hane : a ≠ k := (h1.mem_erase_iff.mp ha).1
        have hbne : b ≠ k := (h1.mem_erase_iff.mp hb).1
        unfold tsOf
        rw [mapLookup_mapErase_ne ek k a hane, mapLookup_mapErase_ne ek k b hbne]
        exact hab
    · simp only [updateKeyExpirationPair, hk, Bool.false_eq_true, if_false]
      exact ⟨h1, h2, h3, h4⟩
  | some exp =>
    by_cases hk : (mapLookup ek k).isSome
    · simp only [updateKeyExpirationPair, if_pos hk]
      have hkeys_eq : keysOf (mapInsert ek k exp) = keysOf ek := by
        rw [keysOf_mapInsert, if_pos hk]
      have hcase := insert_case_invariant ek (ord.erase k) k exp
        (h1.erase k) (h1.not_mem_erase)
        (by rw [hkeys_eq]; exact h2)
        (by
          intro j hjk
          rw [hkeys_eq, h1.mem_erase_iff]
          constructor
          · intro hj
            exact (h3 j).mp hj.2
          · intro hj
            exact ⟨hjk, (h3 j).mpr hj⟩)
        (by
          rw [hkeys_eq]
          exact (mapLookup_isSome_iff_mem ek k).mp hk)
        (List.Pairwise.sublist (List.erase_sublist k ord) h4)
      refine ⟨hcase.1, ?_, hcase.2.1, hcase.2.2⟩
      rw [hkeys_eq]
      exact h2
    · simp only [updateKeyExpirationPair, hk, Bool.false_eq_true, if_false]
      have hknot : k ∉ keysOf ek := by
        intro hmem
        exact hk ((mapLookup_isSome_iff_mem ek k).mpr hmem)
      have hkeys_eq : keysOf (mapInsert ek k exp) = keysOf ek ++ [k] := by
        rw [keysOf_mapInsert, if_neg hk]
      have hcase := insert_case_invariant ek ord k exp h1
        (fun hmem => hknot ((h3 k).mp hmem))
        (by
          rw [hkeys_eq]
          simp [List.nodup_append, h2, hknot])
        (by
          intro j hjk
          rw [hkeys_eq, List.mem_append]
          constructor
          · intro hj
            exact Or.inl ((h3 j).mp hj)
          · rintro (hj | hj)
            · exact (h3 j).mpr hj
            · simp at hj
              exact absurd hj hjk)
        (by
          rw [hkeys_eq]
          exact List.mem_append.mpr (Or.inr (List.mem_cons_self _ _)))
        h4
      refine ⟨hcase.1, ?_, hcase.2.1, hcase.2.2⟩
      rw [hkeys_eq]
      simp [List.nodup_append, h2, hknot]

/-- Invariant preservation for the expiry-drain loop of
`remove_expired_keys`. -/
theorem removeExpiredLoop_invariant (now : Nat) (ord : List Key) :
    ∀ (ek : List (Key × Nat)) (dk : List (Key × Option Entry)),
      ord.Nodup → (keysOf ek).Nodup → (∀ j, j ∈ ord ↔ j ∈ keysOf ek) →
      ord.Pairwise (fun a b => tsOf ek a ≤ tsOf ek b) →
      ((removeExpiredLoop now ord ek dk).1.Nodup ∧
       (keysOf (removeExpiredLoop now ord ek dk).2.1).Nodup ∧
       (∀ j, j ∈ (removeExpiredLoop now ord ek dk).1 ↔
         j ∈ keysOf (removeExpiredLoop now ord ek dk).2.1) ∧
       (removeExpiredLoop now ord ek dk).1.Pairwise
         (fun a b => tsOf (removeExpiredLoop now ord ek dk).2.1 a ≤
           tsOf (removeExpiredLoop now ord ek dk).2.1 b)) := by
  induction ord with
  | nil =>
    intro ek dk h1 h2 h3 h4
    simp only [removeExpiredLoop]
    exact ⟨h1, h2, h3, h4⟩
  | cons kh rest ih =>
    intro ek dk h1 h2 h3 h4
    by_cases hts : tsOf ek kh ≤ now
    · simp only [removeExpiredLoop, if_pos hts]
      have hkh_rest : kh ∉ rest := (List.nodup_cons.mp h1).1
      apply ih (mapErase ek kh) (mapInsert dk kh none) (List.nodup_cons.mp h1).2
      · rw [keysOf_mapErase]
        exact h2.erase kh
      · intro j
        rw [keysOf_mapErase, h2.mem_erase_iff]
        constructor
        · intro hj
          refine ⟨fun hjk => hkh_rest (hjk ▸ hj), (h3 j).mp (List.mem_cons_of_mem _ hj)⟩
        · rintro ⟨hjk, hj⟩
          rcases List.mem_cons.mp ((h3 j).mpr hj) with rfl | hj2
          · exact absurd rfl hjk
          · exact hj2
      · refine List.Pairwise.imp_of_mem ?_ (List.pairwise_cons.mp h4).2
        intro a b ha hb hab
        have hane : a ≠ kh := fun h => hkh_rest (h ▸ ha)
        have hbne : b ≠ kh := fun h => hkh_rest (h ▸ hb)
        unfold tsOf
        rw [mapLookup_mapErase_ne ek kh a hane, mapLookup_mapErase_ne ek kh b hbne]
        exact hab
    · simp only [removeExpiredLoop, if_neg hts]
      exact ⟨h1, h2, h3, h4⟩

/-- The invariant tying `expiring_keys` to `expiration_order`: identical key
sets, no duplicates, and the queue sorted ascending by recorded timestamp. -/
structure ExpirationInvariant (s : KeyValueState) : Prop where
  nodup_order : s.expiration_order.Nodup
  nodup_keys : (keysOf s.expiring_keys).Nodup
  same_keys : ∀ j, j ∈ s.expiration_order ↔ j ∈ keysOf s.expiring_keys
  sorted : s.expiration_order.Pairwise
    (fun a b => tsOf s.expiring_keys a ≤ tsOf s.expiring_keys b)

/-- C6: `expiring_keys` and `expiration_order` always hold the same key set
with the queue sorted ascending (stably) by timestamp; both
`update_key_expiration` and `remove_expired_keys` preserve this, and a
newly inserted key with timestamp `t` lands after every existing entry with
timestamp at most `t` and before every entry strictly above `t`. -/
theorem expiration_invariant_spec (s : KeyValueState) (k : Key) (e : Option Nat)
    (now t : Nat) (hinv : ExpirationInvariant s) :
    ExpirationInvariant (s.update_key_expiration k e) ∧
    ExpirationInvariant (s.remove_expired_keys now) ∧
    (e = some t → k ∉ keysOf s.expiring_keys →
      ∃ pre suf,
        (s.update_key_expiration k e).expiration_order = pre ++ k :: suf ∧
        pre ++ suf = s.expiration_order ∧
        (∀ j ∈ pre, tsOf s.expiring_keys j ≤ t) ∧
        (∀ j ∈ suf, t < tsOf s.expiring_keys j)) := by
  obtain ⟨h1, h2, h3, h4⟩ := hinv
  refine ⟨?_, ?_, ?_⟩
  · have h := updateKeyExpirationPair_invariant s.expiring_keys s.expiration_order k e
      h1 h2 h3 h4
    exact ⟨h.1, h.2.1, h.2.2.1, h.2.2.2⟩
  · have h := removeExpiredLoop_invariant now s.expiration_order s.expiring_keys
      s.dirty_keys h1 h2 h3 h4
    exact ⟨h.1, h.2.1, h.2.2.1, h.2.2.2⟩
  · rintro rfl hknot
    have hk : (mapLookup s.expiring_keys k).isSome = false := by
      cases hs : (mapLookup s.expiring_keys k).isSome
      · rfl
      · exact absurd ((mapLookup_isSome_iff_mem _ _).mp hs) hknot
    obtain ⟨pre, suf, hl, hins, hpre, hsuf⟩ :=
      insertExpiration_split s.expiring_keys t k s.expiration_order
    refine ⟨pre, suf, ?_, hl.symm, hpre, ?_⟩
    · show (updateKeyExpirationPair s.expiring_keys s.expiration_order k (some t)).2 =
        pre ++ k :: suf
      simp only [updateKeyExpirationPair, hk, Bool.false_eq_true, if_false]
      exact hins
    · exact insertSuffix_gt s.expiring_keys t suf
        (h4.sublist (hl ▸ List.sublist_append_right pre suf)) hsuf

/-- A concrete empty state used to witness C6. -/
def witnessState6 : KeyValueState :=
  { disk := fun _ => .ok none
    expiring_keys := []
    expiration_order := []
    dirty_keys := []
    keys_being_persisted := none
    last_commit := 0
    persistence := .immediate }

theorem expiration_invariant_spec_witness :
    ExpirationInvariant witnessState6 ∧
    ExpirationInvariant (witnessState6.update_key_expiration [Char.ofNat 107] (some 3)) :=
  ⟨⟨List.nodup_nil, List.nodup_nil, fun _ => Iff.rfl, List.Pairwise.nil⟩,
   (expiration_invariant_spec witnessState6 [Char.ofNat 107] (some 3) 0 3
      ⟨List.nodup_nil, List.nodup_nil, fun _ => Iff.rfl, List.Pairwise.nil⟩).1⟩

end KV
